import Mathlib

/-!
Shallow embedding of `src/ulc.rs` (untyped lambda calculus engine).

Modelling conventions:
* Rust `String` identifiers become `String`.
* The process-global `COUNTER: AtomicU32` becomes an explicit `Nat` state
  threaded through every function that can call `fresh` (the program is
  single-threaded, so `fetch_add` followed by `load` reads the incremented
  value deterministically).
* Functions that `panic!` return `Option` (`none` = panic).
* `Expr::substitution` recurses on the *result* of a recursive call in its
  capture branch, which is not structural; it is embedded with explicit fuel
  (`substF`) plus a proof (`substF_total`) that fuel `size t` always
  suffices, so the fuel-free wrapper `substitution` is total and agrees with
  the Rust recursion on every input.
* `Expr::full_reduction` is an unbounded loop; it is embedded as
  `full_reduction_go` with fuel, where `RRes.fuelOut` means the loop was cut
  off and `RRes.panicked` means a call inside the loop body panicked.
* `DeBrujin::Var(u32)` indices become `Nat`; the `pos as u32` cast cannot
  overflow for any context arising from a real term.
-/

namespace ULC

abbrev Id := String

/-- Named lambda terms, mirroring `enum Expr { Lam(Id, Box<Expr>), App(Box<Expr>, Box<Expr>), Var(Id) }`. -/
inductive Expr where
  | Lam : Id → Expr → Expr
  | App : Expr → Expr → Expr
  | Var : Id → Expr
deriving DecidableEq

/-- Nameless terms, mirroring `enum DeBrujin { Lam(Box<DeBrujin>), App(..), Var(u32) }`. -/
inductive DeBrujin where
  | Lam : DeBrujin → DeBrujin
  | App : DeBrujin → DeBrujin → DeBrujin
  | Var : Nat → DeBrujin
deriving DecidableEq

/-- The fresh-name source: `COUNTER.fetch_add(1); let c = COUNTER.load(); format!("v{c}")`.
Takes the current counter, returns the issued identifier and the new counter. -/
def fresh (c : Nat) : Id × Nat := ("v" ++ Nat.repr (c + 1), c + 1)

namespace Expr

/-- `Expr::fv`: free variables as a list with duplicates, `Lam` retains the
non-parameter names, `App` appends, `Var` is a singleton. -/
def fv : Expr → List Id
  | .Lam id expr => (fv expr).filter (fun x => x ≠ id)
  | .App e1 e2 => fv e1 ++ fv e2
  | .Var id => [id]

/-- `Expr::debrujin_with`: `Lam` pushes the binder at the *end* of the context,
`Var` takes `ctx.iter().position(|x| x == id)` (first match from the front);
an absent name panics (`none`). -/
def debrujin_with : Expr → List Id → Option DeBrujin
  | .Lam id expr, ctx => (debrujin_with expr (ctx ++ [id])).map DeBrujin.Lam
  | .App e1 e2, ctx => do
      let d1 ← debrujin_with e1 ctx
      let d2 ← debrujin_with e2 ctx
      pure (DeBrujin.App d1 d2)
  | .Var id, ctx => (ctx.findIdx? (fun x => x = id)).map DeBrujin.Var

/-- `Expr::debrujin`: conversion with the empty context. -/
def debrujin (t : Expr) : Option DeBrujin := debrujin_with t []

/-- `Expr::exact_equivalence`: structural equality of the two nameless
conversions; panics (`none`) if either conversion panics, left one first. -/
def exact_equivalence (a b : Expr) : Option Bool := do
  let da ← debrujin a
  let db ← debrujin b
  pure (decide (da = db))

/-- Number of constructors of a term; fuel bound for `substF`. -/
def size : Expr → Nat
  | .Lam _ e => size e + 1
  | .App a b => size a + size b + 1
  | .Var _ => 1

/-- `Expr::substitution` with explicit fuel (the capture branch recurses on
the result `r1` of a recursive call, which is not structurally smaller).
Mirrors the Rust source exactly, including the capture branch
`Expr::Lam(nid, expr.substitution(id, Var(nid)).substitution(id, e))`,
whose second substitution replaces the old *parameter* `id`, not the
name `_id` being substituted. -/
def substF : Nat → Expr → Id → Expr → Nat → Option (Expr × Nat)
  | 0, _, _, _, _ => none
  | fuel + 1, t, i, e, c =>
    match t with
    | .Lam id expr =>
      if id = i then some (.Lam id expr, c)
      else if (fv e).contains id = false then do
        let (r, c1) ← substF fuel expr i e c
        pure (.Lam id r, c1)
      else
        let (nid, c0) := fresh c
        do
          let (r1, c1) ← substF fuel expr id (.Var nid) c0
          let (r2, c2) ← substF fuel r1 id e c1
          pure (.Lam nid r2, c2)
    | .App e1 e2 => do
        let (r1, c1) ← substF fuel e1 i e c
        let (r2, c2) ← substF fuel e2 i e c1
        pure (.App r1 r2, c2)
    | .Var id => some (if i = id then (e, c) else (.Var id, c))

/-- `Expr::substitution`: total wrapper around `substF`; by `substF_total`
the default branch is never taken. -/
def substitution (t : Expr) (i : Id) (e : Expr) (c : Nat) : Expr × Nat :=
  (substF (size t) t i e c).getD (t, c)

/-- `Expr::reduction`: one pass of reduction; `Lam` reduces the body, `App`
reduces both sides (function first) and contracts if the reduced function is
a lambda, `Var` is returned unchanged. -/
def reduction : Expr → Nat → Expr × Nat
  | .Lam id expr, c =>
    let (r, c1) := reduction expr c
    (.Lam id r, c1)
  | .App m n, c =>
    let (mr, c1) := reduction m c
    let (nr, c2) := reduction n c1
    match mr with
    | .Lam id body => substitution body id nr c2
    | _ => (.App mr nr, c2)
  | .Var id, c => (.Var id, c)

/-- Result of running the `full_reduction` loop with fuel. -/
inductive RRes where
  | ok : Expr → Nat → RRes
  | panicked : RRes
  | fuelOut : RRes
deriving DecidableEq

/-- `Expr::full_reduction`: `expr2 = expr.reduction(); while !expr.exact_equivalence(&expr2) { expr = expr2; expr2 = expr.reduction() }; expr`.
One unit of fuel per loop test; `panicked` when `exact_equivalence` panics. -/
def full_reduction_go : Nat → Expr → Nat → RRes
  | 0, _, _ => .fuelOut
  | fuel + 1, expr, c =>
    match exact_equivalence expr (reduction expr c).1 with
    | none => .panicked
    | some true => .ok expr (reduction expr c).2
    | some false => full_reduction_go fuel (reduction expr c).1 (reduction expr c).2

/-- Result of an `equivalence` call with fuel. -/
inductive BRes where
  | ok : Bool → BRes
  | panicked : BRes
  | fuelOut : BRes
deriving DecidableEq

/-- `Expr::equivalence`: `self.full_reduction().debrujin() == other.full_reduction().debrujin()`,
left side evaluated first. -/
def equivalence_go (fuel : Nat) (a b : Expr) (c : Nat) : BRes :=
  match full_reduction_go fuel a c with
  | .panicked => .panicked
  | .fuelOut => .fuelOut
  | .ok ra c1 =>
    match full_reduction_go fuel b c1 with
    | .panicked => .panicked
    | .fuelOut => .fuelOut
    | .ok rb _ =>
      match debrujin ra, debrujin rb with
      | some da, some db => .ok (decide (da = db))
      | _, _ => .panicked

/-- `Expr::to_app_vec`: flattens the whole application tree, left list before
right list; any non-`App` node is a singleton leaf. -/
def to_app_vec : Expr → List Expr
  | .App m n => to_app_vec m ++ to_app_vec n
  | t => [t]

/-- `Expr::to_numeral`: requires the literal binder names `f` and `x`, the
last leaf of the flattened body to be `Var "x"` and every other leaf to be
`Var "f"`; the count of `f` leaves is the numeral. Panics (`none`) otherwise. -/
def to_numeral : Expr → Option Nat
  | .Lam f (.Lam x apps) =>
    if f = "f" then
      if x = "x" then
        let v := to_app_vec apps
        if v.getLast? = some (Expr.Var "x") then
          if v.dropLast.all (fun a => a = Expr.Var "f") then
            some v.dropLast.length
          else none
        else none
      else none
    else none
  | _ => none

/-- Iterating `reduction` a given number of times, threading the counter. -/
def reduce_iter : Nat → Expr → Nat → Expr × Nat
  | 0, t, c => (t, c)
  | k + 1, t, c => reduce_iter k (reduction t c).1 (reduction t c).2

end Expr

/-- Body of the Church numeral: `(0..n).fold(Var "x", |acc, _| Var("f").apply(acc))`. -/
def church_body : Nat → Expr
  | 0 => .Var "x"
  | n + 1 => .App (.Var "f") (church_body n)

/-- `ChurchNumeral::to_church for u32`: `λf. λx. f (f (... x))`. -/
def to_church (n : Nat) : Expr := .Lam "f" (.Lam "x" (church_body n))

/-- Self-duplicator `λx. λy. (x x) (λb. λs. s)`: applying it to itself
reproduces the application spine while the substitution into `λb. λs. s`
renames `b` whenever the substituted term has `b` free. -/
def E4 : Expr :=
  .Lam "x" (.Lam "y" (.App (.App (.Var "x") (.Var "x")) (.Lam "b" (.Lam "s" (.Var "s")))))

/-- Closed term `λb. (E4 E4) b` whose reduction sequence reaches a pair of
alpha-equivalent but syntactically distinct successive terms. -/
def t4 : Expr := .Lam "b" (.App (.App E4 E4) (.Var "b"))

/-- The value `full_reduction` returns for `t4`: `λb. (E4 E4) (λv1. λs. s)`. -/
def t4r : Expr := .Lam "b" (.App (.App E4 E4) (.Lam "v1" (.Lam "s" (.Var "s"))))

/-- Self-duplicator `λx. λy. λz. ((x x) y) (λb. b v3)` with a free `v3`:
every pass re-creates the redex, fires the capture rename of `b` (the
substituted term is `Var b`), and discards the previous renamed copy. -/
def E7 : Expr :=
  .Lam "x" (.Lam "y" (.Lam "z" (.App (.App (.App (.Var "x") (.Var "x")) (.Var "y"))
    (.Lam "b" (.App (.Var "b") (.Var "v3"))))))

/-- Closed term `λv3. λb. ((E7 E7) b) (λq. q)` that makes `full_reduction`
rename with the fresh identifier `v3`, colliding with its own binder `v3`. -/
def t7 : Expr :=
  .Lam "v3" (.Lam "b" (.App (.App (.App E7 E7) (.Var "b")) (.Lam "q" (.Var "q"))))

/-- `full_reduction(t7)` at counter 0 — the inner lambda is named `v1`. -/
def t7r : Expr :=
  .Lam "v3" (.Lam "b" (.App (.App (.App E7 E7) (.Var "b"))
    (.Lam "v1" (.App (.Var "v1") (.Var "v3")))))

/-- `full_reduction(full_reduction(t7))` — the inner lambda is named `v5`. -/
def t7rr : Expr :=
  .Lam "v3" (.Lam "b" (.App (.App (.App E7 E7) (.Var "b"))
    (.Lam "v5" (.App (.Var "v5") (.Var "v3")))))

namespace Expr

/-! ### Unfolding and totality lemmas for `substF` -/

theorem substF_lam_shadow (fuel : Nat) (id : Id) (expr : Expr) (i : Id) (e : Expr)
    (c : Nat) (hid : id = i) :
    substF (fuel + 1) (.Lam id expr) i e c = some (.Lam id expr, c) := by
  simp [substF, hid]

theorem substF_lam_safe (fuel : Nat) (id : Id) (expr : Expr) (i : Id) (e : Expr)
    (c : Nat) (hid : ¬ id = i) (hfv : (fv e).contains id = false) :
    substF (fuel + 1) (.Lam id expr) i e c =
      (substF fuel expr i e c).bind (fun rc => some (.Lam id rc.1, rc.2)) := by
  simp only [substF, if_neg hid, if_pos hfv]
  rfl

theorem substF_lam_capture (fuel : Nat) (id : Id) (expr : Expr) (i : Id) (e : Expr)
    (c : Nat) (hid : ¬ id = i) (hfv : (fv e).contains id = true) :
    substF (fuel + 1) (.Lam id expr) i e c =
      (substF fuel expr id (.Var (fresh c).1) (fresh c).2).bind (fun rc =>
        (substF fuel rc.1 id e rc.2).bind (fun rc2 =>
          some (.Lam (fresh c).1 rc2.1, rc2.2))) := by
  have hne : ¬ ((fv e).contains id = false) := by rw [hfv]; simp
  simp only [substF, if_neg hid, if_neg hne]
  rfl

theorem substF_app (fuel : Nat) (e1 e2 : Expr) (i : Id) (e : Expr) (c : Nat) :
    substF (fuel + 1) (.App e1 e2) i e c =
      (substF fuel e1 i e c).bind (fun rc =>
        (substF fuel e2 i e rc.2).bind (fun rc2 =>
          some (.App rc.1 rc2.1, rc2.2))) := by
  simp only [substF]
  rfl

theorem substF_var (fuel : Nat) (id : Id) (i : Id) (e : Expr) (c : Nat) :
    substF (fuel + 1) (.Var id) i e c = some (if i = id then (e, c) else (.Var id, c)) := by
  simp only [substF]

/-- Substituting a bare variable never changes the size of the subject. -/
theorem substF_size_var :
    ∀ fuel t i v c r c', substF fuel t i (Expr.Var v) c = some (r, c') →
      size r = size t := by
  intro fuel
  induction fuel with
  | zero => intro t i v c r c' h; simp [substF] at h
  | succ fuel ih =>
    intro t i v c r c' h
    cases t with
    | Lam id expr =>
      rcases eq_or_ne id i with hid | hid
      · rw [substF_lam_shadow fuel id expr i _ c hid, Option.some_inj, Prod.mk.injEq] at h
        rw [← h.1]
      · cases hfv : (fv (Expr.Var v)).contains id with
        | false =>
          rw [substF_lam_safe fuel id expr i _ c hid hfv, Option.bind_eq_some] at h
          obtain ⟨rc, hs, h⟩ := h
          rw [Option.some_inj, Prod.mk.injEq] at h
          rw [← h.1]
          simp [size, ih expr i v c rc.1 rc.2 (by rw [hs])]
        | true =>
          rw [substF_lam_capture fuel id expr i _ c hid hfv, Option.bind_eq_some] at h
          obtain ⟨rc1, hs1, h⟩ := h
          rw [Option.bind_eq_some] at h
          obtain ⟨rc2, hs2, h⟩ := h
          rw [Option.some_inj, Prod.mk.injEq] at h
          rw [← h.1]
          have q1 := ih expr id (fresh c).1 (fresh c).2 rc1.1 rc1.2 (by rw [hs1])
          have q2 := ih rc1.1 id v rc1.2 rc2.1 rc2.2 (by rw [hs2])
          simp [size, q1, q2]
    | App e1 e2 =>
      rw [substF_app, Option.bind_eq_some] at h
      obtain ⟨rc1, hs1, h⟩ := h
      rw [Option.bind_eq_some] at h
      obtain ⟨rc2, hs2, h⟩ := h
      rw [Option.some_inj, Prod.mk.injEq] at h
      rw [← h.1]
      have q1 := ih e1 i v c rc1.1 rc1.2 (by rw [hs1])
      have q2 := ih e2 i v rc1.2 rc2.1 rc2.2 (by rw [hs2])
      simp [size, q1, q2]
    | Var id =>
      rw [substF_var, Option.some_inj] at h
      split at h
      · rw [Prod.mk.injEq] at h
        rw [← h.1]
        rfl
      · rw [Prod.mk.injEq] at h
        rw [← h.1]

/-- Fuel `size t` always suffices for `substF`. -/
theorem substF_total :
    ∀ fuel t i e c, size t ≤ fuel → ∃ r c', substF fuel t i e c = some (r, c') := by
  intro fuel
  induction fuel with
  | zero =>
    intro t i e c h
    cases t <;> simp [size] at h
  | succ fuel ih =>
    intro t i e c h
    cases t with
    | Lam id expr =>
      have hsz : size expr ≤ fuel := by simp [size] at h; omega
      rcases eq_or_ne id i with hid | hid
      · exact ⟨.Lam id expr, c, substF_lam_shadow fuel id expr i e c hid⟩
      · cases hfv : (fv e).contains id with
        | false =>
          obtain ⟨r, c1, hr⟩ := ih expr i e c hsz
          refine ⟨.Lam id r, c1, ?_⟩
          rw [substF_lam_safe fuel id expr i e c hid hfv, hr]
          rfl
        | true =>
          obtain ⟨r1, c1, hr1⟩ := ih expr id (.Var (fresh c).1) (fresh c).2 hsz
          have hsz1 : size r1 ≤ fuel := by
            rw [substF_size_var fuel expr id _ _ r1 c1 hr1]
            exact hsz
          obtain ⟨r2, c2, hr2⟩ := ih r1 id e c1 hsz1
          refine ⟨.Lam (fresh c).1 r2, c2, ?_⟩
          rw [substF_lam_capture fuel id expr i e c hid hfv, hr1]
          simp only [Option.some_bind]
          rw [hr2]
          rfl
    | App e1 e2 =>
      have h1 : size e1 ≤ fuel := by simp [size] at h; omega
      have h2 : size e2 ≤ fuel := by simp [size] at h; omega
      obtain ⟨r1, c1, hr1⟩ := ih e1 i e c h1
      obtain ⟨r2, c2, hr2⟩ := ih e2 i e c1 h2
      refine ⟨.App r1 r2, c2, ?_⟩
      rw [substF_app, hr1]
      simp only [Option.some_bind]
      rw [hr2]
      rfl
    | Var id => exact ⟨_, _, substF_var fuel id i e c⟩

end Expr

/-!
Injectivity of the decimal formatting used by `fresh`, proved from
`Nat.toDigitsCore`.
-/

theorem toDigitsCore_append (fuel n : Nat) (ds : List Char) (h : n < fuel) :
    Nat.toDigitsCore 10 fuel n ds = Nat.toDigits 10 n ++ ds := by
  induction n using Nat.strong_induction_on generalizing fuel ds with
  | _ n ih =>
    cases fuel with
    | zero => omega
    | succ fuel =>
      by_cases hz : n / 10 = 0
      · simp [Nat.toDigitsCore, Nat.toDigits, hz]
      · have hge : 10 ≤ n := by
          by_contra hlt
          exact hz (Nat.div_eq_of_lt (by omega))
        have hd : n / 10 < n := Nat.div_lt_self (by omega) (by omega)
        have hf : n / 10 < fuel := by omega
        have e1 : Nat.toDigitsCore 10 (fuel + 1) n ds =
            Nat.toDigitsCore 10 fuel (n / 10) (Nat.digitChar (n % 10) :: ds) := by
          simp [Nat.toDigitsCore, hz]
        have e2 : Nat.toDigits 10 n =
            Nat.toDigitsCore 10 n (n / 10) [Nat.digitChar (n % 10)] := by
          simp [Nat.toDigits, Nat.toDigitsCore, hz]
        rw [e1, ih (n / 10) hd fuel _ hf, e2, ih (n / 10) hd n _ (by omega)]
        simp

theorem toDigits_lt10 (n : Nat) (h : n < 10) :
    Nat.toDigits 10 n = [Nat.digitChar n] := by
  have hz : n / 10 = 0 := Nat.div_eq_of_lt h
  simp [Nat.toDigits, Nat.toDigitsCore, hz, Nat.mod_eq_of_lt h]

theorem toDigits_ge10 (n : Nat) (h : 10 ≤ n) :
    Nat.toDigits 10 n = Nat.toDigits 10 (n / 10) ++ [Nat.digitChar (n % 10)] := by
  have hz : ¬ n / 10 = 0 := by
    have : 0 < n / 10 := Nat.div_pos h (by omega)
    omega
  have e2 : Nat.toDigits 10 n =
      Nat.toDigitsCore 10 n (n / 10) [Nat.digitChar (n % 10)] := by
    simp [Nat.toDigits, Nat.toDigitsCore, hz]
  rw [e2, toDigitsCore_append n (n / 10) _ (by omega)]

theorem toDigits_ne_nil (n : Nat) : Nat.toDigits 10 n ≠ [] := by
  by_cases h : n < 10
  · rw [toDigits_lt10 n h]; simp
  · rw [toDigits_ge10 n (by omega)]; simp

theorem digitChar_inj (m n : Nat) (hm : m < 10) (hn : n < 10)
    (h : Nat.digitChar m = Nat.digitChar n) : m = n := by
  interval_cases m <;> interval_cases n <;> first | rfl | (revert h; decide)

theorem toDigits_inj (m n : Nat) (h : Nat.toDigits 10 m = Nat.toDigits 10 n) : m = n := by
  induction m using Nat.strong_induction_on generalizing n with
  | _ m ih =>
    by_cases hm : m < 10
    · by_cases hn : n < 10
      · rw [toDigits_lt10 m hm, toDigits_lt10 n hn] at h
        exact digitChar_inj m n hm hn (by simpa using h)
      · rw [toDigits_lt10 m hm, toDigits_ge10 n (by omega)] at h
        have := congrArg List.length h
        simp at this
        exact absurd this (toDigits_ne_nil (n / 10))
    · by_cases hn : n < 10
      · rw [toDigits_ge10 m (by omega), toDigits_lt10 n hn] at h
        have := congrArg List.length h
        simp at this
        exact absurd this (toDigits_ne_nil (m / 10))
      · rw [toDigits_ge10 m (by omega), toDigits_ge10 n (by omega)] at h
        have hparts := List.append_inj' h (by simp)
        have h1 : m / 10 = n / 10 :=
          ih (m / 10) (Nat.div_lt_self (by omega) (by omega)) (n / 10) hparts.1
        have h2 : m % 10 = n % 10 := by
          have hy := hparts.2
          simp at hy
          exact digitChar_inj _ _ (Nat.mod_lt _ (by omega)) (Nat.mod_lt _ (by omega)) hy
        omega

theorem repr_inj (m n : Nat) (h : Nat.repr m = Nat.repr n) : m = n := by
  apply toDigits_inj
  have h2 : (Nat.toDigits 10 m).asString = (Nat.toDigits 10 n).asString := h
  have h3 := congrArg String.data h2
  simpa [List.asString] using h3

/-- Distinct counter values produce distinct fresh identifiers. -/
theorem fresh_inj (c1 c2 : Nat) (h : (fresh c1).1 = (fresh c2).1) : c1 = c2 := by
  have h3 : "v".data ++ (Nat.repr (c1 + 1)).data = "v".data ++ (Nat.repr (c2 + 1)).data :=
    congrArg String.data h
  have h4 := List.append_cancel_left h3
  have h5 : Nat.repr (c1 + 1) = Nat.repr (c2 + 1) := String.ext h4
  have h6 := repr_inj _ _ h5
  omega

namespace Expr

/-- A term with a free variable outside the context fails nameless conversion. -/
theorem debrujin_with_none :
    ∀ (t : Expr) (ctx : List Id), (∃ x, x ∈ fv t ∧ x ∉ ctx) →
      debrujin_with t ctx = none := by
  intro t
  induction t with
  | Lam id expr ih =>
    rintro ctx ⟨x, hx, hctx⟩
    simp only [fv, List.mem_filter, decide_eq_true_eq] at hx
    have hnotin : x ∉ ctx ++ [id] := by
      simp only [List.mem_append, List.mem_singleton]
      push_neg
      exact ⟨hctx, hx.2⟩
    simp only [debrujin_with, ih (ctx ++ [id]) ⟨x, hx.1, hnotin⟩, Option.map_none']
  | App e1 e2 ih1 ih2 =>
    rintro ctx ⟨x, hx, hctx⟩
    simp only [fv, List.mem_append] at hx
    cases hx with
    | inl hx1 =>
      simp only [debrujin_with, ih1 ctx ⟨x, hx1, hctx⟩]
      rfl
    | inr hx2 =>
      cases h1 : debrujin_with e1 ctx with
      | none =>
        simp only [debrujin_with, h1]
        rfl
      | some d1 =>
        simp only [debrujin_with, h1, ih2 ctx ⟨x, hx2, hctx⟩]
        rfl
  | Var id =>
    rintro ctx ⟨x, hx, hctx⟩
    simp only [fv, List.mem_singleton] at hx
    subst hx
    have : ctx.findIdx? (fun y => y = x) = none := by
      rw [List.findIdx?_eq_none_iff]
      intro y hy
      simp only [decide_eq_false_iff_not]
      intro hyx
      exact hctx (hyx ▸ hy)
    simp [debrujin_with, this]

/-- An open term (some free variable) fails nameless conversion from the empty context. -/
theorem debrujin_none_of_open (t : Expr) (h : fv t ≠ []) : debrujin t = none := by
  cases hfv : fv t with
  | nil => exact absurd hfv h
  | cons x xs =>
    exact debrujin_with_none t [] ⟨x, by rw [hfv]; exact List.mem_cons_self x xs, by simp⟩

/-- `exact_equivalence` panics whenever its left argument fails conversion. -/
theorem exact_equivalence_none_left (a b : Expr) (h : debrujin a = none) :
    exact_equivalence a b = none := by
  simp [exact_equivalence, h]

/-- `exact_equivalence` of a convertible term with itself is `some true`. -/
theorem exact_equivalence_self (t : Expr) (d : DeBrujin) (h : debrujin t = some d) :
    exact_equivalence t t = some true := by
  simp [exact_equivalence, h]

/-- One pass of `reduction` leaves a Church numeral body unchanged. -/
theorem reduction_church_body (n c : Nat) :
    reduction (church_body n) c = (church_body n, c) := by
  induction n with
  | zero => rfl
  | succ n ih => simp [church_body, reduction, ih]

/-- One pass of `reduction` leaves a Church numeral unchanged. -/
theorem reduction_to_church (n c : Nat) :
    reduction (to_church n) c = (to_church n, c) := by
  simp [to_church, reduction, reduction_church_body]

theorem debrujin_church_body (n : Nat) :
    ∃ d, debrujin_with (church_body n) ["f", "x"] = some d := by
  induction n with
  | zero => exact ⟨DeBrujin.Var 1, rfl⟩
  | succ n ih =>
    obtain ⟨d, hd⟩ := ih
    refine ⟨DeBrujin.App (DeBrujin.Var 0) d, ?_⟩
    simp only [church_body, debrujin_with, hd]
    rfl

theorem debrujin_to_church (n : Nat) : ∃ d, debrujin (to_church n) = some d := by
  obtain ⟨d, hd⟩ := debrujin_church_body n
  refine ⟨DeBrujin.Lam (DeBrujin.Lam d), ?_⟩
  simp only [debrujin, to_church, debrujin_with]
  have : ([] : List Id) ++ ["f"] ++ ["x"] = ["f", "x"] := rfl
  rw [List.nil_append, this] at *
  rw [hd]
  rfl

theorem to_app_vec_church_body (n : Nat) :
    to_app_vec (church_body n) = List.replicate n (Expr.Var "f") ++ [Expr.Var "x"] := by
  induction n with
  | zero => rfl
  | succ n ih => simp [church_body, to_app_vec, ih, List.replicate]

theorem all_replicate (n : Nat) (a : Expr) :
    (List.replicate n a).all (fun b => b = a) = true := by
  induction n with
  | zero => rfl
  | succ n ih => simp [List.replicate, ih]

/-- Decoding a freshly built Church numeral gives back the encoded number. -/
theorem to_numeral_to_church (n : Nat) : to_numeral (to_church n) = some n := by
  simp only [to_church, to_numeral, if_pos rfl, to_app_vec_church_body n]
  rw [List.getLast?_concat, if_pos rfl, List.dropLast_concat, if_pos (all_replicate n _)]
  simp

/-- Every application vector is nonempty. -/
theorem to_app_vec_ne_nil (t : Expr) : to_app_vec t ≠ [] := by
  induction t with
  | App e1 e2 ih1 ih2 => simp [to_app_vec, ih1]
  | Lam id e ih => simp [to_app_vec]
  | Var id => simp [to_app_vec]

theorem eq_dropLast_concat_of_getLast? {α : Type} (l : List α) (a : α)
    (h : l.getLast? = some a) : l = l.dropLast ++ [a] := by
  induction l with
  | nil => simp at h
  | cons x xs ih =>
    cases xs with
    | nil => simp at h; simp [h]
    | cons y ys =>
      rw [List.getLast?_cons_cons] at h
      have := ih h
      rw [List.dropLast_cons₂]
      exact congrArg (x :: ·) this

end Expr

open Expr

/-!
## Claim theorems
-/

/-- Claim C1 (code_bug, evaluation at the failing input): the capture branch
of `substitution` substitutes the old parameter instead of the substituted
name, so `substitute(λy.x, x, y)` returns `λv1.x` — `x` is still free in the
result and `y` never appears — instead of a term alpha-equivalent to `λz.y`. -/
theorem c1_capture_case_eval :
    substitution (.Lam "y" (.Var "x")) "x" (.Var "y") 0 = (.Lam "v1" (.Var "x"), 1) ∧
    "x" ∈ fv (.Lam "v1" (.Var "x")) ∧ "y" ∉ fv (.Lam "v1" (.Var "x")) := by
  refine ⟨by decide, by decide, by decide⟩

/-- Claim C2 (code_bug, evaluation at the failing input): nameless conversion
gives the occurrence of `x` in `λx.λy.x` the index 0 (the position of the
first match counted from the outermost binder), not the claimed 1 (the
binder-nesting distance); shadowing resolves to the outermost binder, so
`λx.λx.x` also converts to `Var 0` and is even identified with `λa.λb.a`. -/
theorem c2_debrujin_eval :
    debrujin (.Lam "x" (.Lam "y" (.Var "x"))) = some (.Lam (.Lam (.Var 0))) ∧
    debrujin (.Lam "x" (.Lam "x" (.Var "x"))) = some (.Lam (.Lam (.Var 0))) ∧
    exact_equivalence (.Lam "x" (.Lam "x" (.Var "x"))) (.Lam "a" (.Lam "b" (.Var "a")))
      = some true := by
  refine ⟨by decide, by decide, by decide⟩

/-- Claim C3 (code_bug, evaluation at the failing input): the alpha-equivalent
terms `λx.λx.x` and `λx.λy.y` are declared inequivalent by
`exact_equivalence` (the level-style conversion resolves the shadowed `x`
occurrence to the outermost binder); plain renaming without shadowing still
works (`λx.x` versus `λy.y`). -/
theorem c3_exact_equivalence_eval :
    exact_equivalence (.Lam "x" (.Lam "x" (.Var "x"))) (.Lam "x" (.Lam "y" (.Var "y")))
      = some false ∧
    exact_equivalence (.Lam "x" (.Var "x")) (.Lam "y" (.Var "y")) = some true := by
  refine ⟨by decide, by decide⟩

/-- Claim C4 (counterexample): `full_reduction` on the closed term `t4`
returns `t4r` although one further `reduction` step changes `t4r`
syntactically (the loop stopped because the step result is merely
nameless-equivalent, not structurally identical). -/
theorem c4_counterexample :
    fv t4 = [] ∧
    full_reduction_go 5 t4 0 = .ok t4r 1 ∧
    (reduction t4r 1).1 ≠ t4r ∧
    exact_equivalence t4r (reduction t4r 1).1 = some true := by
  refine ⟨by decide, by decide, by decide, by decide⟩

/-- Claim C4 (amended): `full_reduction` iterates `reduction` and stops
exactly when one step produces a term whose nameless conversion equals its
input's (`exact_equivalence`, i.e. alpha-level equivalence as implemented —
not syntactic identity), returning that step's input term. -/
theorem c4_full_reduction_stops_at_nameless_fixpoint :
    ∀ (fuel : Nat) (t : Expr) (c : Nat) (r : Expr) (c' : Nat),
      full_reduction_go fuel t c = .ok r c' →
      ∃ k, (reduce_iter k t c).1 = r ∧
        exact_equivalence r (reduction r (reduce_iter k t c).2).1 = some true ∧
        (reduction r (reduce_iter k t c).2).2 = c' := by
  intro fuel
  induction fuel with
  | zero => intro t c r c' h; simp [full_reduction_go] at h
  | succ fuel ih =>
    intro t c r c' h
    simp only [full_reduction_go] at h
    cases heq : exact_equivalence t (reduction t c).1 with
    | none => rw [heq] at h; simp at h
    | some b =>
      cases b with
      | true =>
        rw [heq] at h
        simp at h
        obtain ⟨h1, h2⟩ := h
        subst h1
        exact ⟨0, rfl, by simpa [reduce_iter] using heq, by simpa [reduce_iter] using h2⟩
      | false =>
        rw [heq] at h
        simp at h
        obtain ⟨k, hk1, hk2, hk3⟩ := ih _ _ _ _ h
        exact ⟨k + 1, hk1, hk2, hk3⟩

/-- Claim C4 (witness): the amended stopping property at the concrete input
`λa.a` with fuel 1 and counter 0. -/
theorem c4_witness :
    ∃ k, (reduce_iter k (Expr.Lam "a" (.Var "a")) 0).1 = Expr.Lam "a" (.Var "a") ∧
      exact_equivalence (Expr.Lam "a" (.Var "a"))
        (reduction (Expr.Lam "a" (.Var "a"))
          (reduce_iter k (Expr.Lam "a" (.Var "a")) 0).2).1 = some true ∧
      (reduction (Expr.Lam "a" (.Var "a"))
        (reduce_iter k (Expr.Lam "a" (.Var "a")) 0).2).2 = 0 :=
  c4_full_reduction_stops_at_nameless_fixpoint 1 (Expr.Lam "a" (.Var "a")) 0
    (Expr.Lam "a" (.Var "a")) 0 (by decide)

/-- Claim C5 (counterexample): `to_numeral` accepts the claim's own excluded
shape — `λf.λx.((f f) x)`, whose application structure is not the spine
`f (f x)` — and returns 2 instead of failing. -/
theorem c5_counterexample :
    to_numeral (.Lam "f" (.Lam "x" (.App (.App (.Var "f") (.Var "f")) (.Var "x"))))
      = some 2 := by
  decide

/-- Claim C5 (amended): `to_numeral t = some n` exactly when `t` is a lambda
with the literal binder names `f` and `x` (any other names fail) whose body's
application tree flattens, left to right, to `n` leaves `Var "f"` followed by
one leaf `Var "x"` — regardless of how the applications associate. -/
theorem c5_to_numeral_characterization :
    ∀ (t : Expr) (n : Nat),
      to_numeral t = some n ↔
        ∃ body, t = .Lam "f" (.Lam "x" body) ∧
          to_app_vec body = List.replicate n (Expr.Var "f") ++ [Expr.Var "x"] := by
  intro t n
  constructor
  · intro h
    cases t with
    | Lam f inner =>
      cases inner with
      | Lam x apps =>
        simp only [to_numeral] at h
        split_ifs at h with h1 h2 h3 h4
        · rw [Option.some_inj] at h
          refine ⟨apps, by rw [h1, h2], ?_⟩
          have hv := eq_dropLast_concat_of_getLast? (to_app_vec apps) (Expr.Var "x") h3
          have hall : ∀ b ∈ (to_app_vec apps).dropLast, b = Expr.Var "f" := by
            intro b hb
            have hb2 := List.all_eq_true.mp h4 b hb
            simpa using hb2
          have hrep : (to_app_vec apps).dropLast = List.replicate n (Expr.Var "f") :=
            List.eq_replicate_iff.mpr ⟨by rw [← h], hall⟩
          rw [hv, hrep]
      | App a b => simp [to_numeral] at h
      | Var v => simp [to_numeral] at h
    | App a b => simp [to_numeral] at h
    | Var v => simp [to_numeral] at h
  · rintro ⟨body, rfl, hbody⟩
    simp [to_numeral, hbody, List.getLast?_concat, List.dropLast_concat, all_replicate]

/-- Claim C6 (confirmed): for every `n ≤ 20`, a freshly encoded Church
numeral is already a fixed point of the reduction loop — `full_reduction`
returns it unchanged at any counter — and decoding it yields `n` back. -/
theorem c6_church_round_trip :
    ∀ n : Nat, n ≤ 20 → ∀ fuel c : Nat, 0 < fuel →
      full_reduction_go fuel (to_church n) c = .ok (to_church n) c ∧
      to_numeral (to_church n) = some n := by
  intro n hn fuel c hf
  cases fuel with
  | zero => omega
  | succ fuel =>
    obtain ⟨d, hd⟩ := debrujin_to_church n
    have h1 : reduction (to_church n) c = (to_church n, c) := reduction_to_church n c
    refine ⟨?_, to_numeral_to_church n⟩
    simp only [full_reduction_go, h1, exact_equivalence_self _ d hd]

/-- Claim C6 (witness): the round trip at `n = 20`, fuel 1, counter 0. -/
theorem c6_witness :
    full_reduction_go 1 (to_church 20) 0 = .ok (to_church 20) 0 ∧
    to_numeral (to_church 20) = some 20 :=
  c6_church_round_trip 20 (by decide) 1 0 (by decide)

/-- Claim C7 (code_bug, evaluation at the failing input): on the closed term
`t7` — which contains the identifier `v3`, later issued by the fresh-name
source — `full_reduction` returns `t7r` (bound name `v1`), but running
`full_reduction` again from the counter state it left behind returns `t7rr`
(bound name `v5`), a syntactically different term: idempotence fails. -/
theorem c7_idempotence_fails_eval :
    fv t7 = [] ∧
    full_reduction_go 9 t7 0 = .ok t7r 2 ∧
    full_reduction_go 9 t7r 2 = .ok t7rr 6 ∧
    t7r ≠ t7rr := by
  refine ⟨by decide, by decide, by decide, by decide⟩

/-- Claim C8 (confirmed): the defining equations of one-step reduction — a
lambda reduces its body in place, an application first reduces the function
then the argument and contracts when the reduced function is a lambda
(otherwise rebuilds the application), and a variable is returned unchanged —
all with the fresh counter threaded in that order. -/
theorem c8_reduction_equations :
    (∀ (p : Id) (body : Expr) (c : Nat),
      reduction (.Lam p body) c = (.Lam p (reduction body c).1, (reduction body c).2)) ∧
    (∀ (f a : Expr) (c : Nat) (p : Id) (body : Expr),
      (reduction f c).1 = .Lam p body →
      reduction (.App f a) c =
        substitution body p (reduction a (reduction f c).2).1
          (reduction a (reduction f c).2).2) ∧
    (∀ (f a : Expr) (c : Nat),
      (∀ (p : Id) (body : Expr), (reduction f c).1 ≠ .Lam p body) →
      reduction (.App f a) c =
        (.App (reduction f c).1 (reduction a (reduction f c).2).1,
          (reduction a (reduction f c).2).2)) ∧
    (∀ (n : Id) (c : Nat), reduction (.Var n) c = (.Var n, c)) := by
  refine ⟨?_, ?_, ?_, ?_⟩
  · intro p body c
    rfl
  · intro f a c p body hf
    have h2 : reduction f c = (Expr.Lam p body, (reduction f c).2) := Prod.ext hf rfl
    conv_lhs => rw [reduction, h2]
  · intro f a c hne
    cases hm : (reduction f c).1 with
    | Lam p body => exact absurd hm (hne p body)
    | App m1 m2 =>
      have h2 : reduction f c = (Expr.App m1 m2, (reduction f c).2) := Prod.ext hm rfl
      conv_lhs => rw [reduction, h2]
    | Var v =>
      have h2 : reduction f c = (Expr.Var v, (reduction f c).2) := Prod.ext hm rfl
      conv_lhs => rw [reduction, h2]
  · intro n c
    rfl

/-- Claim C8 (witness): the application equation at the concrete redex
`(λp.p) (λq.q)` with counter 0. -/
theorem c8_witness :
    reduction (.App (.Lam "p" (.Var "p")) (.Lam "q" (.Var "q"))) 0
      = (Expr.Lam "q" (.Var "q"), 0) := by
  have h := c8_reduction_equations.2.1 (Expr.Lam "p" (.Var "p")) (Expr.Lam "q" (.Var "q"))
    0 "p" (Expr.Var "p") (by decide)
  rw [h]
  decide

/-- Claim C9 (counterexample): at counter 0 the fresh-name source issues
`v1`, which is exactly the caller-chosen binder of the input term and the
free variable of the replacement: the capture-avoiding rename picks a name
already occurring in the terms involved. -/
theorem c9_counterexample :
    (fresh 0).1 = "v1" ∧
    substitution (.Lam "v1" (.Var "x")) "x" (.Var "v1") 0 = (.Lam "v1" (.Var "x"), 1) := by
  refine ⟨by decide, by decide⟩

/-- Claim C9 (amended): identifiers issued by the fresh-name source at
distinct counter values are distinct (each call increments the counter, and
the decimal rendering is injective), but nothing separates them from
caller-chosen identifiers such as `v1`. -/
theorem c9_fresh_pairwise_distinct :
    ∀ c1 c2 : Nat, c1 ≠ c2 → (fresh c1).1 ≠ (fresh c2).1 ∧ (fresh c1).2 = c1 + 1 := by
  intro c1 c2 hne
  exact ⟨fun heq => hne (fresh_inj c1 c2 heq), rfl⟩

/-- Claim C9 (witness): the first two issued identifiers differ. -/
theorem c9_witness :
    (fresh 0).1 ≠ (fresh 1).1 ∧ (fresh 0).2 = 0 + 1 :=
  c9_fresh_pairwise_distinct 0 1 (by decide)

/-- Claim C10 (confirmed): on any term with a free variable, the fixed-point
test's nameless conversion of the loop's first argument fails, so
`full_reduction` panics with the unbound-variable failure instead of
returning — even on terms already in normal form — and `equivalence` with any
other term panics likewise. -/
theorem c10_open_term_panics :
    ∀ t : Expr, fv t ≠ [] → ∀ (fuel c : Nat) (u : Expr), 0 < fuel →
      full_reduction_go fuel t c = .panicked ∧
      equivalence_go fuel t u c = .panicked := by
  intro t ht fuel c u hf
  cases fuel with
  | zero => omega
  | succ fuel =>
    have hd := debrujin_none_of_open t ht
    have hee := exact_equivalence_none_left t (reduction t c).1 hd
    have h1 : full_reduction_go (fuel + 1) t c = .panicked := by
      simp only [full_reduction_go, hee]
    exact ⟨h1, by simp only [equivalence_go, h1]⟩

/-- Claim C10 (witness): `full_reduction` and `equivalence` on the free
variable `y` both panic. -/
theorem c10_witness :
    full_reduction_go 1 (.Var "y") 0 = .panicked ∧
    equivalence_go 1 (.Var "y") (.Var "y") 0 = .panicked :=
  c10_open_term_panics (.Var "y") (by decide) 1 0 (.Var "y") (by decide)

end ULC
